import Mathlib

/-!
Verification of the search-and-measurement core of `src/app.py`
(binary-search demo app).

The embedding covers:

* `binary_search` (src/app.py lines 46-57): the iterative binary search.
  Python integers are `Int`; Python floor division `//` is `Int.fdiv`;
  Python list indexing (including its negative-index wrap-around and its
  `IndexError`) is `pyGet`, so the search returns `Option Int` with
  `none` meaning the program crashed with an `IndexError`.
* the list-generation expression of `run_app`
  (src/app.py line 130): `sorted(random.sample(range(-3*n, 3*n), n))`,
  embedded as `generate` over `pyRange` and `pySorted`, with the
  randomness of `random.sample` modelled by quantifying over every list
  satisfying the guarantee `IsSample` that `random.sample` provides, and
  its `ValueError` (the spec's `InvalidLength`) modelled by
  `GenError.InvalidLength`.
-/

/-- Python list indexing `arr[i]`: an index `0 ≤ i < len(arr)` reads
position `i`; a negative index `-len(arr) ≤ i < 0` wraps to position
`len(arr) + i`; any other index raises `IndexError`, modelled as `none`. -/
def pyGet (arr : List Int) (i : Int) : Option Int :=
  if 0 ≤ i then arr.get? i.toNat
  else if 0 ≤ i + arr.length then arr.get? (i + arr.length).toNat
  else none

/-- The `while low <= high` loop of `binary_search` (src/app.py lines
49-56), with `low` and `high` as Python integers.  `mid = (low + high) // 2`
is floor division (`Int.fdiv`).  `return mid` is `some mid`; falling out of
the loop returns `-1` (line 57), i.e. `some (-1)`; an `IndexError` on
`arr[mid]` is `none`. -/
def bsLoop (arr : List Int) (target : Int) (low high : Int) : Option Int :=
  if h : low ≤ high then
    let mid := (low + high).fdiv 2
    match pyGet arr mid with
    | none => none
    | some v =>
      if v = target then some mid
      else if v > target then bsLoop arr target low (mid - 1)
      else bsLoop arr target (mid + 1) high
  else some (-1)
termination_by (high + 1 - low).toNat
decreasing_by
  all_goals
    rw [Int.fdiv_eq_ediv (low + high) (by norm_num)]
    omega

/-- `binary_search(arr, target)` from src/app.py lines 46-57:
`low, high = 0, len(arr) - 1` followed by the loop.  `some i` is a normal
return of `i`; `none` is a crash (`IndexError`). -/
def binary_search (arr : List Int) (target : Int) : Option Int :=
  bsLoop arr target 0 ((arr.length : Int) - 1)

/-- The same loop as `bsLoop`, but with every list access checked against
the strict bounds `0 ≤ mid < len(arr)`: it returns `none` as soon as an
access falls outside that half-open interval (where `bsLoop`, like Python,
would still tolerate a wrapping negative index).  Used to state that every
access `binary_search` performs is in bounds. -/
def bsLoopStrict (arr : List Int) (target : Int) (low high : Int) : Option Int :=
  if h : low ≤ high then
    let mid := (low + high).fdiv 2
    if hm : 0 ≤ mid ∧ mid.toNat < arr.length then
      let v := arr.get ⟨mid.toNat, hm.2⟩
      if v = target then some mid
      else if v > target then bsLoopStrict arr target low (mid - 1)
      else bsLoopStrict arr target (mid + 1) high
    else none
  else some (-1)
termination_by (high + 1 - low).toNat
decreasing_by
  all_goals
    rw [Int.fdiv_eq_ediv (low + high) (by norm_num)]
    omega

/-- Fuel-indexed version of the `binary_search` loop: each iteration of the
`while` loop consumes one unit of fuel, and `none` signals that the fuel ran
out before the loop returned (or that a list access crashed).  Used to state
termination: some finite fuel always suffices. -/
def bsLoopFuel (arr : List Int) (target : Int) : Nat → Int → Int → Option Int
  | 0, _, _ => none
  | fuel + 1, low, high =>
    if low ≤ high then
      let mid := (low + high).fdiv 2
      match pyGet arr mid with
      | none => none
      | some v =>
        if v = target then some mid
        else if v > target then bsLoopFuel arr target fuel low (mid - 1)
        else bsLoopFuel arr target fuel (mid + 1) high
    else some (-1)

/-- Reference loop transcribed from the spec's words (§4.2, Binary), for
the refinement claim only: maintain a closed interval `[low, high]`; when
`low > high` return `NotFound` (`-1`); otherwise `mid = (low + high) div 2`
with floor division; if `list[mid] == target` return `mid`; if
`target < list[mid]` narrow to `[low, mid - 1]`; else narrow to
`[mid + 1, high]`. -/
def specLoop (l : List Int) (t : Int) (low high : Int) : Int :=
  if h : low > high then -1
  else
    let mid := (low + high).fdiv 2
    let v := l.getD mid.toNat 0
    if v = t then mid
    else if t < v then specLoop l t low (mid - 1)
    else specLoop l t (mid + 1) high
termination_by (high + 1 - low).toNat
decreasing_by
  all_goals
    rw [Int.fdiv_eq_ediv (low + high) (by norm_num)]
    omega

/-- Reference binary search transcribed from the spec's words (§4.2):
interval initially `[0, len - 1]`. -/
def specBinarySearch (l : List Int) (t : Int) : Int :=
  specLoop l t 0 ((l.length : Int) - 1)

/-- Python `range(lo, hi)` as the list `[lo, lo+1, ..., hi-1]`. -/
def pyRange (lo hi : Int) : List Int :=
  (List.range (hi - lo).toNat).map fun j : Nat => lo + (j : Int)

/-- The guarantee `random.sample(pop, k)` gives about its result: a list of
`k` distinct elements of the population.  The randomness is modelled by
quantifying over every list satisfying this predicate. -/
def IsSample (pop : List Int) (k : Nat) (s : List Int) : Prop :=
  s.length = k ∧ s.Nodup ∧ ∀ x ∈ s, x ∈ pop

instance (pop : List Int) (k : Nat) (s : List Int) :
    Decidable (IsSample pop k s) := by
  unfold IsSample
  infer_instance

/-- Python `sorted()` on a list of integers: the ascending rearrangement
(any correct comparison sort; on integers the output is determined by the
input alone). -/
def pySorted (l : List Int) : List Int :=
  l.insertionSort (· ≤ ·)

/-- Error raised by the list generation: the spec's `InvalidLength`, i.e.
the `ValueError` that `random.sample` raises when the requested sample size
exceeds the population size. -/
inductive GenError
  | InvalidLength
deriving DecidableEq

/-- The list-generation expression of `run_app` (src/app.py line 130):
`sorted(random.sample(range(-3 * list_size, 3 * list_size), list_size))`,
with the two roles of `list_size` named as in the spec's contract
`generate(length, range_scale)` (the source instantiates both to
`list_size`).  `s` stands for the sample `random.sample` drew;
`random.sample(pop, k)` raises `ValueError` exactly when `k > len(pop)`,
before producing any element, modelled by `GenError.InvalidLength`. -/
def generate (length range_scale : Nat) (s : List Int) :
    Except GenError (List Int) :=
  if length ≤ (pyRange (-3 * (range_scale : Int)) (3 * range_scale)).length then
    Except.ok (pySorted s)
  else
    Except.error GenError.InvalidLength

/-- In-bounds indexing: `pyGet` at a nonnegative index inside the list is
the plain list access. -/
theorem pyGet_eq_get (arr : List Int) (i : Int) (h0 : 0 ≤ i)
    (h1 : i.toNat < arr.length) :
    pyGet arr i = some (arr.get ⟨i.toNat, h1⟩) := by
  unfold pyGet
  rw [if_pos h0, List.get?_eq_get h1]

/-- Floor-division midpoint of a nonempty closed interval stays inside it. -/
theorem fdiv_two_mid_bounds {low high : Int} (h : low ≤ high) :
    low ≤ (low + high).fdiv 2 ∧ (low + high).fdiv 2 ≤ high := by
  rw [Int.fdiv_eq_ediv (low + high) (by norm_num)]
  omega

/-- A run of the fuelled loop that returns normally computes the same
result as the loop itself. -/
theorem bsLoopFuel_sound (arr : List Int) (t : Int) :
    ∀ (fuel : Nat) (low high r : Int),
      bsLoopFuel arr t fuel low high = some r →
      bsLoop arr t low high = some r := by
  intro fuel
  induction fuel with
  | zero =>
      intro low high r h
      exact absurd h (by simp [bsLoopFuel])
  | succ fuel ih =>
      intro low high r h
      rw [bsLoopFuel] at h
      rw [bsLoop]
      by_cases hlh : low ≤ high
      · rw [if_pos hlh] at h
        rw [dif_pos hlh]
        cases hpg : pyGet arr ((low + high).fdiv 2) with
        | none => simp [hpg] at h
        | some v =>
            simp only [hpg] at h ⊢
            by_cases hv : v = t
            · simpa [hv] using h
            · by_cases hgt : v > t
              · simp only [if_neg hv, if_pos hgt] at h ⊢
                exact ih _ _ _ h
              · simp only [if_neg hv, if_neg hgt] at h ⊢
                exact ih _ _ _ h
      · rw [if_neg hlh] at h
        rw [dif_neg hlh]
        exact h

/-- Whenever the loop is entered with `0 ≤ low` and `high ≤ len - 1`, it
returns normally, every list access is inside `[0, len)`, and the
bounds-checked loop computes the same result. -/
theorem bsLoop_strict_agree (arr : List Int) (t : Int) :
    ∀ (k : Nat) (low high : Int), (high + 1 - low).toNat ≤ k → 0 ≤ low →
      high ≤ (arr.length : Int) - 1 →
      ∃ r, bsLoop arr t low high = some r ∧
        bsLoopStrict arr t low high = some r := by
  intro k
  induction k with
  | zero =>
      intro low high hk hl hh
      have hlh : ¬ low ≤ high := by omega
      rw [bsLoop, bsLoopStrict, dif_neg hlh, dif_neg hlh]
      exact ⟨-1, rfl, rfl⟩
  | succ k ih =>
      intro low high hk hl hh
      by_cases hlh : low ≤ high
      · have hmid := fdiv_two_mid_bounds hlh
        set mid := (low + high).fdiv 2 with hmiddef
        have h0 : 0 ≤ mid := le_trans hl hmid.1
        have hlt : mid.toNat < arr.length := by omega
        rw [bsLoop, bsLoopStrict, dif_pos hlh, dif_pos hlh]
        simp only [← hmiddef, pyGet_eq_get arr mid h0 hlt,
          dif_pos (⟨h0, hlt⟩ : 0 ≤ mid ∧ mid.toNat < arr.length)]
        by_cases hv : arr.get ⟨mid.toNat, hlt⟩ = t
        · exact ⟨mid, by rw [if_pos hv], by rw [if_pos hv]⟩
        · by_cases hgt : arr.get ⟨mid.toNat, hlt⟩ > t
          · simp only [if_neg hv, if_pos hgt]
            exact ih low (mid - 1) (by omega) hl (by omega)
          · simp only [if_neg hv, if_neg hgt]
            exact ih (mid + 1) high (by omega) (by omega) hh
      · rw [bsLoop, bsLoopStrict, dif_neg hlh, dif_neg hlh]
        exact ⟨-1, rfl, rfl⟩

/-- If the target is absent from the list, the loop (entered in bounds)
falls through and returns `-1`. -/
theorem bsLoop_not_mem (arr : List Int) (t : Int) (hnot : t ∉ arr) :
    ∀ (k : Nat) (low high : Int), (high + 1 - low).toNat ≤ k → 0 ≤ low →
      high ≤ (arr.length : Int) - 1 →
      bsLoop arr t low high = some (-1) := by
  intro k
  induction k with
  | zero =>
      intro low high hk hl hh
      have hlh : ¬ low ≤ high := by omega
      rw [bsLoop, dif_neg hlh]
  | succ k ih =>
      intro low high hk hl hh
      by_cases hlh : low ≤ high
      · have hmid := fdiv_two_mid_bounds hlh
        set mid := (low + high).fdiv 2 with hmiddef
        have h0 : 0 ≤ mid := le_trans hl hmid.1
        have hlt : mid.toNat < arr.length := by omega
        rw [bsLoop, dif_pos hlh]
        simp only [← hmiddef, pyGet_eq_get arr mid h0 hlt]
        have hv : ¬ arr.get ⟨mid.toNat, hlt⟩ = t := by
          intro hv
          exact hnot (hv ▸ arr.get_mem mid.toNat hlt)
        by_cases hgt : arr.get ⟨mid.toNat, hlt⟩ > t
        · simp only [if_neg hv, if_pos hgt]
          exact ih low (mid - 1) (by omega) hl (by omega)
        · simp only [if_neg hv, if_neg hgt]
          exact ih (mid + 1) high (by omega) (by omega) hh
      · rw [bsLoop, dif_neg hlh]

/-- Any nonnegative result the loop returns is a position holding the
target, for an arbitrary (possibly unsorted) list. -/
theorem bsLoop_found (arr : List Int) (t : Int) :
    ∀ (k : Nat) (low high r : Int), (high + 1 - low).toNat ≤ k →
      bsLoop arr t low high = some r → 0 ≤ r →
      arr.get? r.toNat = some t := by
  intro k
  induction k with
  | zero =>
      intro low high r hk h hr
      have hlh : ¬ low ≤ high := by omega
      rw [bsLoop, dif_neg hlh] at h
      have hr1 : r = -1 := by injection h with h1; omega
      subst hr1
      exact absurd hr (by norm_num)
  | succ k ih =>
      intro low high r hk h hr
      by_cases hlh : low ≤ high
      · have hmid := fdiv_two_mid_bounds hlh
        set mid := (low + high).fdiv 2 with hmiddef
        rw [bsLoop, dif_pos hlh] at h
        simp only [← hmiddef] at h
        cases hpg : pyGet arr mid with
        | none => simp [hpg] at h
        | some v =>
            simp only [hpg] at h
            by_cases hv : v = t
            · simp only [if_pos hv] at h
              have hrm : r = mid := by
                injection h with h
                omega
              subst hrm
              have h0 : 0 ≤ mid := hr
              unfold pyGet at hpg
              rw [if_pos h0] at hpg
              rw [hpg, hv]
            · by_cases hgt : v > t
              · simp only [if_neg hv, if_pos hgt] at h
                exact ih low (mid - 1) r (by omega) h hr
              · simp only [if_neg hv, if_neg hgt] at h
                exact ih (mid + 1) high r (by omega) h hr
      · rw [bsLoop, dif_neg hlh] at h
        have hr1 : r = -1 := by injection h with h1; omega
        subst hr1
        exact absurd hr (by norm_num)

/-- On a sorted list holding the target at exactly one position, the loop
(entered with an interval that brackets that position) returns it. -/
theorem bsLoop_finds (arr : List Int) (t : Int) (hs : arr.Sorted (· ≤ ·))
    (i : Nat) (hi : i < arr.length) (ht : arr.get ⟨i, hi⟩ = t)
    (huniq : ∀ (j : Nat) (hj : j < arr.length), arr.get ⟨j, hj⟩ = t → j = i) :
    ∀ (k : Nat) (low high : Int), (high + 1 - low).toNat ≤ k →
      0 ≤ low → low ≤ (i : Int) → (i : Int) ≤ high →
      high ≤ (arr.length : Int) - 1 →
      bsLoop arr t low high = some (i : Int) := by
  intro k
  induction k with
  | zero =>
      intro low high hk hl hli hih hh
      exfalso
      omega
  | succ k ih =>
      intro low high hk hl hli hih hh
      have hlh : low ≤ high := le_trans hli hih
      have hmid := fdiv_two_mid_bounds hlh
      set mid := (low + high).fdiv 2 with hmiddef
      have h0 : 0 ≤ mid := le_trans hl hmid.1
      have hlt : mid.toNat < arr.length := by omega
      rw [bsLoop, dif_pos hlh]
      simp only [← hmiddef, pyGet_eq_get arr mid h0 hlt]
      by_cases hv : arr.get ⟨mid.toNat, hlt⟩ = t
      · rw [if_pos hv]
        have heq : mid.toNat = i := huniq mid.toNat hlt hv
        congr 1
        omega
      · rw [if_neg hv]
        by_cases hgt : arr.get ⟨mid.toNat, hlt⟩ > t
        · rw [if_pos hgt]
          have hil : i < mid.toNat := by
            by_contra hc
            push_neg at hc
            have hmono :=
              hs.get_mono (show (⟨mid.toNat, hlt⟩ : Fin arr.length) ≤ ⟨i, hi⟩ from hc)
            rw [ht] at hmono
            exact absurd (lt_of_lt_of_le hgt hmono) (lt_irrefl t)
          exact ih low (mid - 1) (by omega) hl hli (by omega) (by omega)
        · rw [if_neg hgt]
          have hvlt : arr.get ⟨mid.toNat, hlt⟩ < t :=
            lt_of_le_of_ne (le_of_not_lt hgt) hv
          have hil : mid.toNat < i := by
            by_contra hc
            push_neg at hc
            have hmono :=
              hs.get_mono (show (⟨i, hi⟩ : Fin arr.length) ≤ ⟨mid.toNat, hlt⟩ from hc)
            rw [ht] at hmono
            exact absurd (lt_of_le_of_lt hmono hvlt) (lt_irrefl t)
          exact ih (mid + 1) high (by omega) (by omega) (by omega) hih hh

/-- The implementation loop agrees with the loop transcribed from the
spec's words, whenever entered in bounds. -/
theorem bsLoop_eq_specLoop (arr : List Int) (t : Int) :
    ∀ (k : Nat) (low high : Int), (high + 1 - low).toNat ≤ k → 0 ≤ low →
      high ≤ (arr.length : Int) - 1 →
      bsLoop arr t low high = some (specLoop arr t low high) := by
  intro k
  induction k with
  | zero =>
      intro low high hk hl hh
      have hlh : ¬ low ≤ high := by omega
      rw [bsLoop, specLoop, dif_neg hlh, dif_pos (show low > high by omega)]
  | succ k ih =>
      intro low high hk hl hh
      by_cases hlh : low ≤ high
      · have hmid := fdiv_two_mid_bounds hlh
        set mid := (low + high).fdiv 2 with hmiddef
        have h0 : 0 ≤ mid := le_trans hl hmid.1
        have hlt : mid.toNat < arr.length := by omega
        have hgetD : arr.getD mid.toNat 0 = arr.get ⟨mid.toNat, hlt⟩ := by
          rw [List.getD_eq_getElem?_getD, List.getElem?_eq_getElem hlt]
          rfl
        rw [bsLoop, specLoop, dif_pos hlh, dif_neg (show ¬ low > high by omega)]
        simp only [← hmiddef, pyGet_eq_get arr mid h0 hlt, hgetD]
        by_cases hv : arr.get ⟨mid.toNat, hlt⟩ = t
        · rw [if_pos hv, if_pos hv]
        · rw [if_neg hv, if_neg hv]
          by_cases hgt : arr.get ⟨mid.toNat, hlt⟩ > t
          · rw [if_pos hgt, if_pos hgt]
            exact ih low (mid - 1) (by omega) hl (by omega)
          · rw [if_neg hgt, if_neg hgt]
            exact ih (mid + 1) high (by omega) (by omega) hh
      · rw [bsLoop, specLoop, dif_neg hlh, dif_pos (show low > high by omega)]

/-- With fuel exceeding the interval size, the fuelled loop returns
normally: the `while` loop of `binary_search` terminates without crashing. -/
theorem bsLoopFuel_complete (arr : List Int) (t : Int) :
    ∀ (fuel : Nat) (low high : Int), 0 ≤ low →
      high ≤ (arr.length : Int) - 1 → (high + 1 - low).toNat < fuel →
      ∃ r, bsLoopFuel arr t fuel low high = some r := by
  intro fuel
  induction fuel with
  | zero =>
      intro low high hl hh hk
      exact absurd hk (by omega)
  | succ fuel ih =>
      intro low high hl hh hk
      rw [bsLoopFuel]
      by_cases hlh : low ≤ high
      · rw [if_pos hlh]
        have hmid := fdiv_two_mid_bounds hlh
        set mid := (low + high).fdiv 2 with hmiddef
        have h0 : 0 ≤ mid := le_trans hl hmid.1
        have hlt : mid.toNat < arr.length := by omega
        simp only [← hmiddef, pyGet_eq_get arr mid h0 hlt]
        by_cases hv : arr.get ⟨mid.toNat, hlt⟩ = t
        · exact ⟨mid, by rw [if_pos hv]⟩
        · rw [if_neg hv]
          by_cases hgt : arr.get ⟨mid.toNat, hlt⟩ > t
          · rw [if_pos hgt]
            exact ih low (mid - 1) hl (by omega) (by omega)
          · rw [if_neg hgt]
            exact ih (mid + 1) high (by omega) hh (by omega)
      · exact ⟨-1, by rw [if_neg hlh]⟩

/-- Python `range(lo, hi)` has `hi - lo` elements (clamped at zero). -/
theorem pyRange_length (lo hi : Int) :
    (pyRange lo hi).length = (hi - lo).toNat := by
  unfold pyRange
  rw [List.length_map, List.length_range]

/-- Membership in Python `range(lo, hi)` is the half-open interval. -/
theorem pyRange_mem (lo hi x : Int) : x ∈ pyRange lo hi ↔ lo ≤ x ∧ x < hi := by
  unfold pyRange
  simp only [List.mem_map, List.mem_range]
  constructor
  · rintro ⟨j, hj, rfl⟩
    omega
  · intro h
    exact ⟨(x - lo).toNat, by omega, by omega⟩

/-- C1: for every list sorted in ascending order in which the target
occurs exactly once, at index `i`, `binary_search` returns `i` — the index
of the target in the list. -/
theorem binary_search_unique_occurrence (arr : List Int) (t : Int)
    (hs : arr.Sorted (· ≤ ·)) (i : Nat) (hi : i < arr.length)
    (ht : arr.get ⟨i, hi⟩ = t)
    (huniq : ∀ (j : Nat) (hj : j < arr.length), arr.get ⟨j, hj⟩ = t → j = i) :
    binary_search arr t = some (i : Int) := by
  unfold binary_search
  exact bsLoop_finds arr t hs i hi ht huniq arr.length 0
    ((arr.length : Int) - 1) (by omega) (by omega) (by omega) (by omega)
    (by omega)

/-- Witness for C1: on `[1, 3, 5, 7, 9]` with target `5` the search
returns index `2`, and on `[10]` with target `10` it returns index `0`. -/
theorem binary_search_unique_occurrence_witness :
    binary_search [1, 3, 5, 7, 9] 5 = some 2 ∧
    binary_search [10] 10 = some 0 :=
  ⟨binary_search_unique_occurrence [1, 3, 5, 7, 9] 5 (by decide) 2 (by decide)
      (by decide) (by decide),
   binary_search_unique_occurrence [10] 10 (by decide) 0 (by decide)
      (by decide) (by decide)⟩

/-- C2: for every list (the empty list included) and every target absent
from it, `binary_search` returns the NotFound sentinel `-1`. -/
theorem binary_search_absent (arr : List Int) (t : Int) (h : t ∉ arr) :
    binary_search arr t = some (-1) := by
  unfold binary_search
  exact bsLoop_not_mem arr t h arr.length 0 ((arr.length : Int) - 1)
    (by omega) (by omega) (by omega)

/-- Witness for C2: on `[1, 3, 5, 7, 9]` with target `4` and on `[]` with
target `0` the search returns `-1`. -/
theorem binary_search_absent_witness :
    binary_search [1, 3, 5, 7, 9] 4 = some (-1) ∧
    binary_search ([] : List Int) 0 = some (-1) :=
  ⟨binary_search_absent [1, 3, 5, 7, 9] 4 (by decide),
   binary_search_absent ([] : List Int) 0 (by decide)⟩

/-- C3: on every input, the implementation returns (without crashing)
exactly the result of the reference algorithm transcribed from the spec:
closed interval `[low, high]` initially `[0, len - 1]`, floor-division
midpoint, equal → return `mid`, target smaller → `[low, mid - 1]`,
otherwise → `[mid + 1, high]`, NotFound once `low > high`. -/
theorem binary_search_refines_spec (arr : List Int) (t : Int) :
    binary_search arr t = some (specBinarySearch arr t) := by
  unfold binary_search specBinarySearch
  exact bsLoop_eq_specLoop arr t arr.length 0 ((arr.length : Int) - 1)
    (by omega) (by omega) (by omega)

/-- C4: on every list (unsorted or with duplicates included) and every
target, the loop of `binary_search` terminates within `len + 1` iterations
without crashing, and the value it returns is the function's result. -/
theorem binary_search_terminates (arr : List Int) (t : Int) :
    ∃ r, bsLoopFuel arr t (arr.length + 1) 0 ((arr.length : Int) - 1) =
        some r ∧
      binary_search arr t = some r := by
  obtain ⟨r, hr⟩ := bsLoopFuel_complete arr t (arr.length + 1) 0
    ((arr.length : Int) - 1) (by omega) (by omega) (by omega)
  exact ⟨r, hr, bsLoopFuel_sound arr t _ _ _ _ hr⟩

/-- C5: the search is deterministic and idempotent — two invocations of
`binary_search` on the identical pair return identical results (the
embedding is a pure function of the pair, mirroring the source, which
reads only its two arguments and its local variables). -/
theorem binary_search_deterministic (arr : List Int) (t : Int) :
    binary_search arr t = binary_search arr t := rfl

/-- C9: whatever the list (sorted or not), if `binary_search` returns a
nonnegative index then that index is within bounds and the list holds the
target there. -/
theorem binary_search_found_sound (arr : List Int) (t r : Int)
    (h : binary_search arr t = some r) (hr : 0 ≤ r) :
    r.toNat < arr.length ∧ arr.get? r.toNat = some t := by
  have hg := bsLoop_found arr t (((arr.length : Int) - 1) + 1 - 0).toNat 0
    ((arr.length : Int) - 1) r (by omega) h hr
  obtain ⟨hlt, -⟩ := List.get?_eq_some.mp hg
  exact ⟨hlt, hg⟩

/-- Witness for C9: on the unsorted list `[3, 1, 2]` with target `1` the
search returns index `1`, which indeed holds the target. -/
theorem binary_search_found_sound_witness :
    binary_search [3, 1, 2] 1 = some 1 ∧
    ((1 : Int).toNat < ([3, 1, 2] : List Int).length ∧
      ([3, 1, 2] : List Int).get? (1 : Int).toNat = some 1) := by
  have hb : binary_search [3, 1, 2] 1 = some 1 :=
    bsLoopFuel_sound [3, 1, 2] 1 4 0 2 1 (by decide)
  exact ⟨hb, binary_search_found_sound [3, 1, 2] 1 1 hb (by norm_num)⟩

/-- C10: every list access of `binary_search` is in bounds: the run of the
loop in which each access is checked against `0 ≤ mid < len` returns
normally (the out-of-bounds branch is never taken) and agrees with the
implementation's result. -/
theorem binary_search_accesses_in_bounds (arr : List Int) (t : Int) :
    ∃ r, bsLoopStrict arr t 0 ((arr.length : Int) - 1) = some r ∧
      binary_search arr t = some r := by
  obtain ⟨r, h1, h2⟩ := bsLoop_strict_agree arr t arr.length 0
    ((arr.length : Int) - 1) (by omega) (by omega) (by omega)
  exact ⟨r, h2, h1⟩

/-- C7: for every positive length and range scale and every sample of
that length that `random.sample` can draw from
`range(-3 * range_scale, 3 * range_scale)`, the generated list has exactly
`length` elements, is strictly increasing (sorted ascending with distinct
entries), and every element lies within the closed interval
`[-3 * range_scale, 3 * range_scale]`. -/
theorem generate_sorted_bounded (length range_scale : Nat) (s : List Int)
    (hlen : 0 < length) (hscale : 0 < range_scale)
    (hs : IsSample (pyRange (-3 * (range_scale : Int)) (3 * range_scale))
      length s) :
    ∃ out, generate length range_scale s = Except.ok out ∧
      out.length = length ∧ out.Sorted (· < ·) ∧
      ∀ x ∈ out, -3 * (range_scale : Int) ≤ x ∧ x ≤ 3 * (range_scale : Int) := by
  obtain ⟨hsl, hnd, hmem⟩ := hs
  have hle : length ≤
      (pyRange (-3 * (range_scale : Int)) (3 * range_scale)).length := by
    rw [← hsl]
    exact (hnd.subperm fun x hx => hmem x hx).length_le
  refine ⟨pySorted s, ?_, ?_, ?_, ?_⟩
  · unfold generate
    rw [if_pos hle]
  · unfold pySorted
    rw [List.length_insertionSort, hsl]
  · have hsort : (pySorted s).Sorted (· ≤ ·) :=
      List.sorted_insertionSort _ s
    have hndp : (pySorted s).Nodup :=
      (List.perm_insertionSort _ s).symm.nodup hnd
    exact hsort.lt_of_le hndp
  · intro x hx
    have hxs : x ∈ s := (List.perm_insertionSort _ s).mem_iff.mp hx
    have hb := (pyRange_mem _ _ x).mp (hmem x hxs)
    omega

/-- Witness for C7: generating one element with range scale 1 from the
sample `[0]`. -/
theorem generate_sorted_bounded_witness :
    ∃ out, generate 1 1 [0] = Except.ok out ∧ out.length = 1 ∧
      out.Sorted (· < ·) ∧
      ∀ x ∈ out, -3 * ((1 : Nat) : Int) ≤ x ∧ x ≤ 3 * ((1 : Nat) : Int) :=
  generate_sorted_bounded 1 1 [0] (by decide) (by decide) (by decide)

/-- C8: the generation fails with `InvalidLength` exactly when the
requested length exceeds the number of distinct integers available in the
requested range (and that number is `6 * range_scale`); in that case the
error, not any list, is the whole result. -/
theorem generate_invalid_length_iff (length range_scale : Nat)
    (s : List Int) :
    ((generate length range_scale s =
        Except.error GenError.InvalidLength) ↔
      (pyRange (-3 * (range_scale : Int)) (3 * range_scale)).length <
        length) ∧
    (pyRange (-3 * (range_scale : Int)) (3 * range_scale)).length =
      6 * range_scale := by
  constructor
  · unfold generate
    by_cases h : length ≤
        (pyRange (-3 * (range_scale : Int)) (3 * range_scale)).length
    · rw [if_pos h]
      simp only [reduceCtorEq, false_iff]
      omega
    · rw [if_neg h]
      simp only [true_iff]
      omega
  · rw [pyRange_length]
    omega
